import Mathlib

/-!
Verification of the graph binary codec in `main.cpp` (TSV edge list ↔ compact
binary, versions 1/2).  The C++ code is shallowly embedded: machine integers
become `Nat` with explicit `% 2^32` / `% 2^64` where the source can wrap,
byte streams become `List Nat` (every byte produced by the writer is `< 256`),
and every `die(...)` call becomes an `Except` error.
-/

namespace GraphCodec

/-- `2^32`, the wrap-around modulus of `uint32_t` arithmetic in the source. -/
def U32 : Nat := 4294967296

/-- `2^64`, the wrap-around modulus of `uint64_t` arithmetic in the source. -/
def TWO64 : Nat := 18446744073709551616

/-- Error outcomes of the codec.  The first seven correspond to `die(...)`
calls actually present in `main.cpp`.  `oobIndex` marks an out-of-bounds
`std::vector::operator[]` access (undefined behaviour in the source; the
model stops with this error).  `corruptAdjacency` and `corruptLoops` are the
error classes named by the specification (spec.md §7); no code path of
`main.cpp` produces them, and they are included so that claims mentioning
them can be stated. -/
inductive Err : Type
  | binaryTooSmall
  | badMagic
  | unsupportedVersion
  | unsupportedEndian
  | unexpectedEOF
  | varintTooLong
  | oobIndex
  | corruptAdjacency
  | corruptLoops
  deriving DecidableEq

deriving instance DecidableEq for Except

/-- `uint32_t` subtraction `a - b` (wraps modulo `2^32`); the source relies on
this never wrapping because it only subtracts `prev` from a larger `j`. -/
def sub32 (a b : Nat) : Nat := (a + U32 - b) % U32

/-- Fuel-indexed body of `BinWriter::varu` (`while (x>=0x80){ put(uint8_t(x)|0x80);
x>>=7; } put(uint8_t(x));`).  The fuel only bounds the iteration count; see
`varuEncode_unfold` for the loop equation. -/
def varuEncodeAux : Nat → Nat → List Nat
  | 0, _ => []
  | fuel + 1, x => if x < 128 then [x] else (x % 128 + 128) :: varuEncodeAux fuel (x / 128)

/-- `BinWriter::varu`: unsigned LEB128 encoding, 7 bits per byte, LSB first,
high bit = continuation. -/
def varuEncode (x : Nat) : List Nat := varuEncodeAux (x + 1) x

theorem varuEncodeAux_succ (f x : Nat) :
    varuEncodeAux (f + 1) x =
      if x < 128 then [x] else (x % 128 + 128) :: varuEncodeAux f (x / 128) := rfl

theorem varuEncodeAux_irrel :
    ∀ f g x : Nat, x < f → x < g → varuEncodeAux f x = varuEncodeAux g x := by
  intro f
  induction f with
  | zero => intro g x hf _; omega
  | succ f ih =>
    intro g x hf hg
    cases g with
    | zero => omega
    | succ g =>
      rw [varuEncodeAux_succ, varuEncodeAux_succ]
      by_cases h : x < 128
      · simp [h]
      · have hx : 0 < x := by omega
        have hdiv : x / 128 < x := Nat.div_lt_self hx (by omega)
        rw [if_neg h, if_neg h, ih g (x / 128) (by omega) (by omega)]

/-- The loop equation of `BinWriter::varu`. -/
theorem varuEncode_unfold (x : Nat) :
    varuEncode x = if x < 128 then [x] else (x % 128 + 128) :: varuEncode (x / 128) := by
  by_cases h : x < 128
  · simp [varuEncode, varuEncodeAux_succ, h]
  · have hx : 0 < x := by omega
    have hdiv : x / 128 < x := Nat.div_lt_self hx (by omega)
    rw [if_neg h, varuEncode, varuEncodeAux_succ, if_neg h]
    congr 1
    rw [varuEncode]
    exact varuEncodeAux_irrel x (x / 128 + 1) (x / 128) (by omega) (by omega)

/-- `BinReader::varu`: reads LEB128 bytes, accumulating `x |= (b & 0x7F) << s`
(64-bit arithmetic, hence the `% TWO64`), stopping on a byte with clear
continuation bit, and dying with `"varint too long"` once the updated shift
exceeds 63. -/
def varuDecodeAux : List Nat → Nat → Nat → Except Err (Nat × List Nat)
  | [], _, _ => .error .unexpectedEOF
  | b :: bs, x, s =>
    if b < 128 then .ok (x ||| ((b % 128) <<< s) % TWO64, bs)
    else if 63 < s + 7 then .error .varintTooLong
    else varuDecodeAux bs (x ||| ((b % 128) <<< s) % TWO64) (s + 7)

/-- `BinReader::varu`, entered with `x = 0`, `s = 0`. -/
def rdVaru (bs : List Nat) : Except Err (Nat × List Nat) := varuDecodeAux bs 0 0

/-- Disjoint-bit `or` is addition: relates the reader's `x |= g << s`
to plain arithmetic. -/
theorem lor_mul_pow_eq_add (a g s : Nat) (h : a < 2 ^ s) :
    a ||| g * 2 ^ s = a + g * 2 ^ s := by
  rw [Nat.lor_comm, Nat.mul_comm g (2 ^ s), ← Nat.mul_add_lt_is_or h, Nat.add_comm]

theorem varuDecodeAux_encode (x : Nat) :
    ∀ acc s rest, acc < 2 ^ s → x < 2 ^ (64 - s) → s ≤ 63 →
      varuDecodeAux (varuEncode x ++ rest) acc s = .ok (acc + x * 2 ^ s, rest) := by
  induction x using Nat.strong_induction_on with
  | _ x ih =>
    intro acc s rest hacc hx hs
    rw [varuEncode_unfold]
    have hsl : ∀ g : Nat, g <<< s = g * 2 ^ s := fun g => Nat.shiftLeft_eq g s
    by_cases h : x < 128
    · simp only [h, if_true, List.cons_append, List.nil_append, varuDecodeAux, if_pos h]
      have hmod : x % 128 = x := Nat.mod_eq_of_lt h
      have hxs : x * 2 ^ s < 2 ^ 64 := by
        calc x * 2 ^ s < 2 ^ (64 - s) * 2 ^ s :=
              (Nat.mul_lt_mul_right (Nat.two_pow_pos s)).mpr hx
          _ = 2 ^ 64 := by rw [← Nat.pow_add]; congr 1; omega
      rw [hmod, hsl x, Nat.mod_eq_of_lt (by unfold TWO64; omega),
        lor_mul_pow_eq_add acc x s hacc]
    · -- continuation byte
      have h7 : (7 : Nat) < 64 - s := by
        have h1 : 2 ^ 7 ≤ x := by omega
        have h2 : (2:Nat) ^ 7 < 2 ^ (64 - s) := by omega
        exact (Nat.pow_lt_pow_iff_right (by omega)).mp h2
      have hs7 : s + 7 ≤ 63 := by omega
      simp only [h, if_false, List.cons_append, varuDecodeAux]
      have hb : ¬ (x % 128 + 128 < 128) := by omega
      rw [if_neg hb, if_neg (by omega : ¬ (63 < s + 7))]
      have hmod : (x % 128 + 128) % 128 = x % 128 := by omega
      have hlow : x % 128 < 128 := by omega
      have hxs : x % 128 * 2 ^ s < 2 ^ 64 := by
        calc x % 128 * 2 ^ s < 128 * 2 ^ s :=
              (Nat.mul_lt_mul_right (Nat.two_pow_pos s)).mpr hlow
          _ = 2 ^ (s + 7) := by rw [Nat.pow_add]; ring
          _ ≤ 2 ^ 64 := Nat.pow_le_pow_right (by omega) (by omega)
      rw [hmod, hsl (x % 128), Nat.mod_eq_of_lt (by unfold TWO64; omega),
        lor_mul_pow_eq_add acc (x % 128) s hacc]
      have hdiv : x / 128 < x := Nat.div_lt_self (by omega) (by omega)
      have hacc' : acc + x % 128 * 2 ^ s < 2 ^ (s + 7) := by
        have h1 : x % 128 * 2 ^ s ≤ 127 * 2 ^ s := Nat.mul_le_mul_right _ (by omega)
        have h2 : (2:Nat) ^ (s + 7) = 128 * 2 ^ s := by rw [Nat.pow_add]; ring
        omega
      have hx' : x / 128 < 2 ^ (64 - (s + 7)) := by
        rw [Nat.div_lt_iff_lt_mul (by omega : (0:Nat) < 128)]
        calc x < 2 ^ (64 - s) := hx
          _ = 2 ^ (64 - (s + 7)) * 128 := by
            have he : (64 - s) = (64 - (s + 7)) + 7 := by omega
            rw [he, Nat.pow_add]
      rw [ih (x / 128) hdiv (acc + x % 128 * 2 ^ s) (s + 7) rest hacc' hx' hs7]
      congr 2
      have hmd : x % 128 + 128 * (x / 128) = x := Nat.mod_add_div x 128
      have h2 : (2:Nat) ^ (s + 7) = 2 ^ s * 128 := by rw [Nat.pow_add]
      calc acc + x % 128 * 2 ^ s + x / 128 * 2 ^ (s + 7)
          = acc + (x % 128 + 128 * (x / 128)) * 2 ^ s := by rw [h2]; ring
        _ = acc + x * 2 ^ s := by rw [hmd]

/-- LEB128 round-trip at the stream level. -/
theorem rdVaru_encode (x : Nat) (hx : x < TWO64) (rest : List Nat) :
    rdVaru (varuEncode x ++ rest) = .ok (x, rest) := by
  have hx' : x < 2 ^ (64 - 0) := by unfold TWO64 at hx; norm_num; omega
  have h := varuDecodeAux_encode x 0 0 rest (by norm_num) hx' (by omega)
  simpa [rdVaru] using h

/-- Fuel-indexed bit length (position of the highest set bit, plus one). -/
def bitlenAux : Nat → Nat → Nat
  | 0, _ => 0
  | fuel + 1, x => if x = 0 then 0 else bitlenAux fuel (x / 2) + 1

/-- Bit length of a natural number: `bitlen 0 = 0`, `bitlen x = ⌊log2 x⌋ + 1`
for `x > 0`. -/
def bitlen (x : Nat) : Nat := bitlenAux x x

theorem bitlenAux_succ (f x : Nat) :
    bitlenAux (f + 1) x = if x = 0 then 0 else bitlenAux f (x / 2) + 1 := rfl

theorem bitlenAux_irrel : ∀ f g x : Nat, x ≤ f → x ≤ g → bitlenAux f x = bitlenAux g x := by
  intro f
  induction f with
  | zero =>
    intro g x hf _
    have hx : x = 0 := by omega
    cases g with
    | zero => rfl
    | succ g => simp [hx, bitlenAux_succ, bitlenAux]
  | succ f ih =>
    intro g x hf hg
    by_cases hx : x = 0
    · cases g with
      | zero => simp [hx, bitlenAux_succ, bitlenAux]
      | succ g => simp [hx, bitlenAux_succ]
    · cases g with
      | zero => omega
      | succ g =>
        rw [bitlenAux_succ, bitlenAux_succ, if_neg hx, if_neg hx,
          ih g (x / 2) (by omega) (by omega)]

theorem bitlen_unfold (x : Nat) : bitlen x = if x = 0 then 0 else bitlen (x / 2) + 1 := by
  by_cases hx : x = 0
  · simp [hx, bitlen, bitlenAux]
  · have h1 : 0 < x := by omega
    rw [if_neg hx, bitlen]
    cases x with
    | zero => omega
    | succ y =>
      rw [bitlenAux_succ, if_neg hx, bitlen]
      congr 1
      exact bitlenAux_irrel y ((y + 1) / 2) ((y + 1) / 2) (by omega) (by omega)

theorem bitlen_le_of_lt_pow : ∀ k x : Nat, x < 2 ^ k → bitlen x ≤ k := by
  intro k
  induction k with
  | zero =>
    intro x hx
    have : x = 0 := by simpa using hx
    simp [this, bitlen, bitlenAux]
  | succ k ih =>
    intro x hx
    rw [bitlen_unfold]
    by_cases hx0 : x = 0
    · simp [hx0]
    · rw [if_neg hx0]
      have : x / 2 < 2 ^ k := by
        rw [Nat.div_lt_iff_lt_mul (by omega : (0:Nat) < 2)]
        calc x < 2 ^ (k + 1) := hx
          _ = 2 ^ k * 2 := by rw [Nat.pow_succ]
      exact Nat.add_le_add_right (ih (x / 2) this) 1

theorem bitlen_pos (x : Nat) (hx : 0 < x) : 1 ≤ bitlen x := by
  rw [bitlen_unfold, if_neg (by omega)]
  omega

theorem bitlen_div128 (x : Nat) (hx : 128 ≤ x) : bitlen x = bitlen (x / 128) + 7 := by
  have s1 : x / 2 / 2 = x / 4 := by omega
  have s2 : x / 4 / 2 = x / 8 := by omega
  have s3 : x / 8 / 2 = x / 16 := by omega
  have s4 : x / 16 / 2 = x / 32 := by omega
  have s5 : x / 32 / 2 = x / 64 := by omega
  have s6 : x / 64 / 2 = x / 128 := by omega
  rw [bitlen_unfold, if_neg (by omega)]
  rw [bitlen_unfold, if_neg (by omega), s1]
  rw [bitlen_unfold, if_neg (by omega), s2]
  rw [bitlen_unfold, if_neg (by omega), s3]
  rw [bitlen_unfold, if_neg (by omega), s4]
  rw [bitlen_unfold, if_neg (by omega), s5]
  rw [bitlen_unfold, if_neg (by omega), s6]

/-- The LEB128 encoding of `x` takes `⌈bitlen x / 7⌉` bytes (one byte for
`x = 0`). -/
theorem varuEncode_length (x : Nat) :
    (varuEncode x).length = if x = 0 then 1 else (bitlen x + 6) / 7 := by
  induction x using Nat.strong_induction_on with
  | _ x ih =>
    rw [varuEncode_unfold]
    by_cases h : x < 128
    · rw [if_pos h]
      by_cases hx0 : x = 0
      · simp [hx0]
      · rw [if_neg hx0]
        have h1 : 1 ≤ bitlen x := bitlen_pos x (by omega)
        have h7 : bitlen x ≤ 7 := bitlen_le_of_lt_pow 7 x (by omega)
        simp only [List.length_cons, List.length_nil]
        omega
    · rw [if_neg h]
      have hdiv : x / 128 < x := Nat.div_lt_self (by omega) (by omega)
      have hd0 : x / 128 ≠ 0 → (bitlen (x / 128) + 6) / 7 = (bitlen x + 6) / 7 - 1 := by
        intro _
        rw [bitlen_div128 x (by omega)]
        omega
      rw [if_neg (by omega : ¬ x = 0)]
      simp only [List.length_cons, ih (x / 128) hdiv]
      by_cases hz : x / 128 = 0
      · have : x < 2 ^ 14 := by
          have : x / 128 < 1 := by omega
          have hlt : x < 128 := by omega
          omega
        rw [if_pos hz]
        have h1 : 8 ≤ bitlen x := by
          by_contra hcon
          push_neg at hcon
          have := bitlen_div128 x (by omega)
          have := bitlen_pos (x / 128)
          omega
        omega
      · rw [if_neg hz, hd0 hz]
        have h1 : 8 ≤ bitlen x := by
          have := bitlen_div128 x (by omega)
          have := bitlen_pos (x / 128) (by omega)
          omega
        omega

/-- If the first `10` bytes of the stream all carry the continuation bit, the
reader dies with `"varint too long"`; if the stream is shorter and every byte
carries the continuation bit, it dies with `"unexpected EOF (varint)"`. -/
theorem varuDecodeAux_all_cont :
    ∀ (bs : List Nat) (x s : Nat), 7 ∣ s → s ≤ 63 →
      (∀ b ∈ bs.take ((63 - s) / 7 + 1), 128 ≤ b) →
      varuDecodeAux bs x s =
        .error (if (63 - s) / 7 + 1 ≤ bs.length then Err.varintTooLong else Err.unexpectedEOF) := by
  intro bs
  induction bs with
  | nil =>
    intro x s _ _ _
    rw [if_neg (by simp : ¬ ((63 - s) / 7 + 1 ≤ ([] : List Nat).length))]
    rfl
  | cons b bs ih =>
    intro x s hdvd hs hcont
    obtain ⟨t, rfl⟩ := hdvd
    have hb : 128 ≤ b := hcont b (by rw [List.take_succ_cons]; exact List.mem_cons_self b _)
    simp only [varuDecodeAux, if_neg (by omega : ¬ b < 128)]
    by_cases h63 : 63 < 7 * t + 7
    · rw [if_pos h63, if_pos (by simp only [List.length_cons]; omega)]
    · rw [if_neg h63]
      have hidx : (63 - (7 * t + 7)) / 7 + 1 = (63 - 7 * t) / 7 := by omega
      have hcont' : ∀ b' ∈ bs.take ((63 - (7 * t + 7)) / 7 + 1), 128 ≤ b' := by
        intro b' hmem
        apply hcont
        rw [List.take_succ_cons]
        exact List.mem_cons_of_mem b (by rwa [hidx] at hmem)
      rw [ih (x ||| (b % 128) <<< (7 * t) % TWO64) (7 * t + 7) ⟨t + 1, by ring⟩
        (by omega) hcont']
      congr 1
      by_cases hlen : (63 - (7 * t + 7)) / 7 + 1 ≤ bs.length
      · rw [if_pos hlen, if_pos (by simp only [List.length_cons]; omega)]
      · rw [if_neg hlen, if_neg (by simp only [List.length_cons]; omega)]

/-- `BinReader::get`: one byte, or `die("unexpected EOF in binary file")`. -/
def rdByte : List Nat → Except Err (Nat × List Nat)
  | [] => .error .unexpectedEOF
  | b :: bs => .ok (b, bs)

/-- `BinReader::u32le`: little-endian `uint32_t`
(`p[0] | p[1]<<8 | p[2]<<16 | p[3]<<24`). -/
def rdU32le : List Nat → Except Err (Nat × List Nat)
  | b0 :: b1 :: b2 :: b3 :: rest =>
    .ok (b0 ||| b1 <<< 8 ||| b2 <<< 16 ||| b3 <<< 24, rest)
  | _ => .error .unexpectedEOF

/-- `BinReader::u64le`: little-endian `uint64_t`. -/
def rdU64le : List Nat → Except Err (Nat × List Nat)
  | b0 :: b1 :: b2 :: b3 :: b4 :: b5 :: b6 :: b7 :: rest =>
    .ok (b0 ||| b1 <<< 8 ||| b2 <<< 16 ||| b3 <<< 24 ||| b4 <<< 32 ||| b5 <<< 40
      ||| b6 <<< 48 ||| b7 <<< 56, rest)
  | _ => .error .unexpectedEOF

/-- `BinWriter::u32le`: the four bytes `x & 0xFF`, `(x>>8) & 0xFF`,
`(x>>16) & 0xFF`, `(x>>24) & 0xFF`. -/
def u32leBytes (x : Nat) : List Nat :=
  [x % 256, x / 256 % 256, x / 65536 % 256, x / 16777216 % 256]

/-- `BinWriter::u64le`: eight bytes, least significant first. -/
def u64leBytes (x : Nat) : List Nat :=
  [x % 256, x / 256 % 256, x / 65536 % 256, x / 16777216 % 256,
   x / 4294967296 % 256, x / 1099511627776 % 256,
   x / 281474976710656 % 256, x / 72057594037927936 % 256]

/-- One little-endian accumulation step:
`(x mod 2^k) | ((byte k of x) << k) = x mod 2^(k+8)`. -/
theorem le_byte_step (k x : Nat) :
    x % 2 ^ k ||| (x / 2 ^ k % 256) <<< k = x % 2 ^ (k + 8) := by
  rw [Nat.shiftLeft_eq,
    lor_mul_pow_eq_add (x % 2 ^ k) (x / 2 ^ k % 256) k (Nat.mod_lt x (Nat.two_pow_pos k))]
  have h256 : (2:Nat) ^ (k + 8) = 2 ^ k * 256 := by rw [Nat.pow_add]
  rw [h256, Nat.mod_mul]
  ring

theorem rdU32le_bytes (x : Nat) (hx : x < U32) (rest : List Nat) :
    rdU32le (u32leBytes x ++ rest) = .ok (x, rest) := by
  have e0 : x % 256 = x % 2 ^ 8 := by norm_num
  have e1 : x / 256 = x / 2 ^ 8 := by norm_num
  have e2 : x / 65536 = x / 2 ^ 16 := by norm_num
  have e3 : x / 16777216 = x / 2 ^ 24 := by norm_num
  simp only [u32leBytes, List.cons_append, List.nil_append, rdU32le, e0, e1, e2, e3]
  rw [le_byte_step 8 x]
  rw [show (8:Nat) + 8 = 16 from rfl, le_byte_step 16 x]
  rw [show (16:Nat) + 8 = 24 from rfl, le_byte_step 24 x]
  rw [show (24:Nat) + 8 = 32 from rfl]
  rw [Nat.mod_eq_of_lt (by unfold U32 at hx; norm_num; omega)]

theorem rdU64le_bytes (x : Nat) (hx : x < TWO64) (rest : List Nat) :
    rdU64le (u64leBytes x ++ rest) = .ok (x, rest) := by
  have e0 : x % 256 = x % 2 ^ 8 := by norm_num
  have e1 : x / 256 = x / 2 ^ 8 := by norm_num
  have e2 : x / 65536 = x / 2 ^ 16 := by norm_num
  have e3 : x / 16777216 = x / 2 ^ 24 := by norm_num
  have e4 : x / 4294967296 = x / 2 ^ 32 := by norm_num
  have e5 : x / 1099511627776 = x / 2 ^ 40 := by norm_num
  have e6 : x / 281474976710656 = x / 2 ^ 48 := by norm_num
  have e7 : x / 72057594037927936 = x / 2 ^ 56 := by norm_num
  simp only [u64leBytes, List.cons_append, List.nil_append, rdU64le,
    e0, e1, e2, e3, e4, e5, e6, e7]
  rw [le_byte_step 8 x]
  rw [show (8:Nat) + 8 = 16 from rfl, le_byte_step 16 x]
  rw [show (16:Nat) + 8 = 24 from rfl, le_byte_step 24 x]
  rw [show (24:Nat) + 8 = 32 from rfl, le_byte_step 32 x]
  rw [show (32:Nat) + 8 = 40 from rfl, le_byte_step 40 x]
  rw [show (40:Nat) + 8 = 48 from rfl, le_byte_step 48 x]
  rw [show (48:Nat) + 8 = 56 from rfl, le_byte_step 56 x]
  rw [show (56:Nat) + 8 = 64 from rfl]
  rw [Nat.mod_eq_of_lt (by unfold TWO64 at hx; norm_num; omega)]

/-! ### Serializer (`Serializer::run`)

The serializer's input is the list of `(u, v, w)` triples produced by the TSV
scanner, in file order.  Pass 1 collects endpoint ids, `sort` + `unique`
produce the ascending id table `uniq`; passes 2 and 3 build, for every compact
vertex `u`, the slice of upper-adjacency entries in input order (the CSR
cursor fill appends to vertex `u`'s slice each non-loop edge with
`min(ia,ib) = u`, in input order), which is then sorted by neighbour.
`std::sort` leaves the order of entries with equal keys unspecified; the model
fixes one admissible order (`List.insertionSort`). -/

/-- An input edge line: `(u, v, w)`. -/
abbrev Edge : Type := Nat × Nat × Nat

/-- Pass 1: both endpoints of every line, in input order (`all_ids`). -/
def allIds (edges : List Edge) : List Nat :=
  edges.flatMap (fun e => [e.1, e.2.1])

/-- `sort(uniq); uniq.erase(unique(...))`: ascending ids, adjacent duplicates
removed. -/
def uniqIds (edges : List Edge) : List Nat :=
  (List.insertionSort (· ≤ ·) (allIds edges)).destutter (· ≠ ·)

/-- `idx_of`: `lower_bound` on the sorted `uniq`; every id looked up is a
member, where `lower_bound` coincides with the first index of the id. -/
def idxOf (uniq : List Nat) (x : Nat) : Nat := uniq.indexOf x

/-- Sort key of the per-vertex neighbour sort and of the loop sort
(`x.first < y.first` comparator, modelled by its reflexive closure). -/
def leFst (x y : Nat × Nat) : Prop := x.1 ≤ y.1

instance : DecidableRel leFst := fun x y => Nat.decLe x.1 y.1

instance : IsTotal (Nat × Nat) leFst := ⟨fun x y => Nat.le_total x.1 y.1⟩

instance : IsTrans (Nat × Nat) leFst := ⟨fun _ _ _ h1 h2 => Nat.le_trans h1 h2⟩

/-- Pass 3 slice of vertex `u`: for each non-loop edge with
`min(ia,ib) = u`, the entry `(max(ia,ib), w)`, in input order. -/
def upperRaw (uniq : List Nat) (edges : List Edge) (u : Nat) : List (Nat × Nat) :=
  edges.filterMap (fun e =>
    let ia := idxOf uniq e.1
    let ib := idxOf uniq e.2.1
    if ia = ib then none
    else if min ia ib = u then some (max ia ib, e.2.2) else none)

/-- The per-vertex neighbour slice after the `std::sort` by neighbour. -/
def upperSorted (uniq : List Nat) (edges : List Edge) (u : Nat) : List (Nat × Nat) :=
  List.insertionSort leFst (upperRaw uniq edges u)

/-- Pass 3 loop collection: `(ia, w)` for each self-loop line, in input
order. -/
def loopsRaw (uniq : List Nat) (edges : List Edge) : List (Nat × Nat) :=
  edges.filterMap (fun e =>
    if idxOf uniq e.1 = idxOf uniq e.2.1 then some (idxOf uniq e.1, e.2.2) else none)

/-- The loop list after the `std::sort` by vertex. -/
def loopsSorted (uniq : List Nat) (edges : List Edge) : List (Nat × Nat) :=
  List.insertionSort leFst (loopsRaw uniq edges)

/-- Pass 2 counter `M_noLoops`: the number of non-loop lines. -/
def MnoLoops (uniq : List Nat) (edges : List Edge) : Nat :=
  edges.countP (fun e => !(idxOf uniq e.1 == idxOf uniq e.2.1))

/-- `M_total = M_noLoops + loops.size()`. -/
def Mtotal (uniq : List Nat) (edges : List Edge) : Nat :=
  MnoLoops uniq edges + (loopsSorted uniq edges).length

/-- Delta-plus-weight emission shared by Section B's inner loop
(`gap = j - prev` starting at `prev = i`) and Section C
(`delta = v - prevLoop` starting at `prevLoop = 0`): each entry contributes
`varu(delta)` followed by the weight byte. -/
def deltaPairBytes (prev : Nat) : List (Nat × Nat) → List Nat
  | [] => []
  | (j, w) :: tl => varuEncode (sub32 j prev) ++ w :: deltaPairBytes j tl

/-- Section B: for `i = 0..N-1`, `varu(deg)` then the gap/weight pairs with
running base `prev = i`. -/
def sectionB (uniq : List Nat) (edges : List Edge) : List Nat :=
  (List.range uniq.length).flatMap (fun i =>
    varuEncode (upperSorted uniq edges i).length ++ deltaPairBytes i (upperSorted uniq edges i))

/-- Section C: `varu(L)` then the delta/weight pairs with running base `0`. -/
def sectionC (uniq : List Nat) (edges : List Edge) : List Nat :=
  varuEncode (loopsSorted uniq edges).length ++ deltaPairBytes 0 (loopsSorted uniq edges)

/-- The six header bytes `'G' 'R' 'P' 'H' version endian`. -/
def hdr (v : Nat) : List Nat := [71, 82, 80, 72, v, 1]

/-- The version-2 mapping delta loop `for i=1..N-1: varu(uniq[i] - uniq[i-1])`. -/
def mapDeltaBytes (prev : Nat) : List Nat → List Nat
  | [] => []
  | x :: tl => varuEncode (sub32 x prev) ++ mapDeltaBytes x tl

/-- Version-2 mapping section: `u32le(orig[0])`, then `N-1` varint deltas
`orig[i] - orig[i-1]`. -/
def mapV2Bytes : List Nat → List Nat
  | [] => []
  | first :: tl => u32leBytes first ++ mapDeltaBytes first tl

/-- `Serializer::run`, as a function from scanned triples to output bytes.
The `line_cnt == 0` short-circuit emits only the version-2 header and
`varu(0) varu(0)`. -/
def serialize (edges : List Edge) : List Nat :=
  if edges.length = 0 then hdr 2 ++ varuEncode 0 ++ varuEncode 0
  else
    hdr 2 ++ varuEncode (uniqIds edges).length ++ varuEncode (Mtotal (uniqIds edges) edges)
      ++ mapV2Bytes (uniqIds edges) ++ sectionB (uniqIds edges) edges
      ++ sectionC (uniqIds edges) edges

/-- The version-1 binary of the same graph, following the version-1 format
documented in the header comment of `main.cpp` (fixed-width `u32 N` and
`u64 M`, mapping as `N` raw little-endian `u32`s, Sections B and C identical
to version 2).  `main.cpp` only reads this format; it has no version-1
writer. -/
def serializeV1 (edges : List Edge) : List Nat :=
  if edges.length = 0 then hdr 1 ++ u32leBytes 0 ++ u64leBytes 0
  else
    hdr 1 ++ u32leBytes (uniqIds edges).length ++ u64leBytes (Mtotal (uniqIds edges) edges)
      ++ (uniqIds edges).flatMap u32leBytes ++ sectionB (uniqIds edges) edges
      ++ sectionC (uniqIds edges) edges

/-! ### Deserializer (`Deserializer::run`)

The emitted TSV lines are modelled as the list of `(a, b, w)` triples printed;
`renderLines` turns them into the actual text.  `orig_of[...]` accesses use
`vecGet`: an index past the end of the vector is undefined behaviour in the
source and stops the model with `oobIndex`. -/

/-- A `std::vector::operator[]` access; out of range is UB in the source,
modelled as the `oobIndex` error. -/
def vecGet (l : List Nat) (k : Nat) : Except Err Nat :=
  match l.get? k with
  | some v => .ok v
  | none => .error .oobIndex

/-- Sequencing with the source's `die` semantics: an error aborts the run,
otherwise the continuation receives the value and the rest of the stream. -/
def exSeq {α β : Type} (m : Except Err α) (f : α → Except Err β) : Except Err β :=
  match m with
  | .error e => .error e
  | .ok a => f a

@[simp]
theorem exSeq_ok {α β : Type} (a : α) (f : α → Except Err β) : exSeq (.ok a) f = f a := rfl

@[simp]
theorem exSeq_error {α β : Type} (e : Err) (f : α → Except Err β) :
    exSeq (.error e) f = .error e := rfl

/-- Version-1 mapping: `N` consecutive little-endian `u32`s. -/
def readMapV1 : Nat → List Nat → Except Err (List Nat × List Nat)
  | 0, bs => .ok ([], bs)
  | k + 1, bs =>
    exSeq (rdU32le bs) (fun p =>
      exSeq (readMapV1 k p.2) (fun q => .ok (p.1 :: q.1, q.2)))

/-- Version-2 mapping delta loop:
`orig_of[i] = orig_of[i-1] + (uint32_t)varu()` (32-bit wrap-around add). -/
def readDeltas (prev : Nat) : Nat → List Nat → Except Err (List Nat × List Nat)
  | 0, bs => .ok ([], bs)
  | k + 1, bs =>
    exSeq (rdVaru bs) (fun p =>
      exSeq (readDeltas ((prev + p.1 % U32) % U32) k p.2) (fun q =>
        .ok ((prev + p.1 % U32) % U32 :: q.1, q.2)))

/-- Version-2 mapping: if `N > 0`, one `u32le` then `N-1` deltas. -/
def readMapV2 : Nat → List Nat → Except Err (List Nat × List Nat)
  | 0, bs => .ok ([], bs)
  | k + 1, bs =>
    exSeq (rdU32le bs) (fun p =>
      exSeq (readDeltas p.1 k p.2) (fun q => .ok (p.1 :: q.1, q.2)))

/-- Inner adjacency loop of vertex `i`: `deg` records, each
`gap = varu()`, `j = prev + (uint32_t)gap` (32-bit wrap), weight byte, then
the line `orig_of[i] \t orig_of[j] \t w`, with `prev = j` afterwards. -/
def readNbrs (orig : List Nat) (i : Nat) (prev : Nat) :
    Nat → List Nat → Except Err (List Edge × List Nat)
  | 0, bs => .ok ([], bs)
  | d + 1, bs =>
    exSeq (rdVaru bs) (fun p =>
      exSeq (rdByte p.2) (fun pw =>
        exSeq (vecGet orig i) (fun a =>
          exSeq (vecGet orig ((prev + p.1 % U32) % U32)) (fun b =>
            exSeq (readNbrs orig i ((prev + p.1 % U32) % U32) d pw.2) (fun q =>
              .ok ((a, b, pw.1) :: q.1, q.2))))))

/-- Outer adjacency loop: for `i = 0..N-1`, `deg = varu()` then `deg`
neighbour records starting from `prev = i`. -/
def readAdjAll (orig : List Nat) : Nat → Nat → List Nat → Except Err (List Edge × List Nat)
  | _, 0, bs => .ok ([], bs)
  | i, c + 1, bs =>
    exSeq (rdVaru bs) (fun p =>
      exSeq (readNbrs orig i i p.1 p.2) (fun q =>
        exSeq (readAdjAll orig (i + 1) c q.2) (fun r =>
          .ok (q.1 ++ r.1, r.2))))

/-- Loop records: `delta = varu()`, `v = acc + (uint32_t)delta` (32-bit
wrap), weight byte, line `orig_of[v] \t orig_of[v] \t w`, `acc = v`. -/
def readLoopEntries (orig : List Nat) (acc : Nat) :
    Nat → List Nat → Except Err (List Edge × List Nat)
  | 0, bs => .ok ([], bs)
  | t + 1, bs =>
    exSeq (rdVaru bs) (fun p =>
      exSeq (rdByte p.2) (fun pw =>
        exSeq (vecGet orig ((acc + p.1 % U32) % U32)) (fun a =>
          exSeq (readLoopEntries orig ((acc + p.1 % U32) % U32) t pw.2) (fun q =>
            .ok ((a, a, pw.1) :: q.1, q.2)))))

/-- Section C: `L = varu()` then `L` loop records starting from `acc = 0`.
Trailing bytes after the loops section are ignored, as in the source. -/
def readLoopSec (orig : List Nat) (bs : List Nat) : Except Err (List Edge) :=
  exSeq (rdVaru bs) (fun p =>
    exSeq (readLoopEntries orig 0 p.1 p.2) (fun q => .ok q.1))

/-- Adjacency then loops; the text lines appear in exactly this order. -/
def decodeBody (orig : List Nat) (bs : List Nat) : Except Err (List Edge) :=
  exSeq (readAdjAll orig 0 orig.length bs) (fun p =>
    exSeq (readLoopSec orig p.2) (fun ls2 => .ok (p.1 ++ ls2)))

/-- Mapping section per version, then the shared body. -/
def afterMapping (v : Nat) (n : Nat) (bs : List Nat) : Except Err (List Edge) :=
  exSeq (if v = 1 then readMapV1 n bs else readMapV2 n bs) (fun p =>
    decodeBody p.1 p.2)

/-- After the six header bytes: `N, M` fixed-width for version 1
(`N = u32le`, `M = u64le`), varint for version 2 (`N = (uint32_t)varu()`,
`M = varu()`); `M` is read and discarded. -/
def afterHeader (v : Nat) (bs : List Nat) : Except Err (List Edge) :=
  if v = 1 then
    exSeq (rdU32le bs) (fun p =>
      exSeq (rdU64le p.2) (fun _m => afterMapping 1 p.1 _m.2))
  else
    exSeq (rdVaru bs) (fun p =>
      exSeq (rdVaru p.2) (fun _m => afterMapping 2 (p.1 % U32) _m.2))

/-- `Deserializer::run`: the size gate `sz < 4+1+1+4+8` (18 bytes, the
version-1 minimum) runs before anything else; then magic, version and endian
checks, then the version-dependent tail. -/
def deserialize (bs : List Nat) : Except Err (List Edge) :=
  if bs.length < 18 then .error .binaryTooSmall
  else
    match bs with
    | b0 :: b1 :: b2 :: b3 :: v :: e :: rest =>
      if b0 = 71 ∧ b1 = 82 ∧ b2 = 80 ∧ b3 = 72 then
        if v = 1 ∨ v = 2 then
          if e = 1 then afterHeader v rest
          else .error .unsupportedEndian
        else .error .unsupportedVersion
      else .error .badMagic
    | _ => .error .unexpectedEOF

/-- The text written by `TextWriter` for a list of emitted lines. -/
def renderLines (ls : List Edge) : String :=
  String.join (ls.map (fun e => toString e.1 ++ "\t" ++ toString e.2.1 ++ "\t"
    ++ toString e.2.2 ++ "\n"))

/-! ### Parsing the serializer's own output -/

theorem deserialize_hdr (v : Nat) (hv : v = 1 ∨ v = 2) (xs : List Nat) (h : 12 ≤ xs.length) :
    deserialize (hdr v ++ xs) = afterHeader v xs := by
  show deserialize (71 :: 82 :: 80 :: 72 :: v :: 1 :: xs) = afterHeader v xs
  have hlen : ¬ ((71 :: 82 :: 80 :: 72 :: v :: 1 :: xs).length < 18) := by
    simp only [List.length_cons]; omega
  simp only [deserialize, if_neg hlen]
  simp [hv]

theorem readMapV1_flatMap (l : List Nat) (rest : List Nat) (h : ∀ x ∈ l, x < U32) :
    readMapV1 l.length (l.flatMap u32leBytes ++ rest) = .ok (l, rest) := by
  induction l with
  | nil => simp [readMapV1]
  | cons x tl ih =>
    simp only [List.flatMap_cons, List.length_cons, List.append_assoc, readMapV1]
    rw [rdU32le_bytes x (h x (List.mem_cons_self x tl)) (tl.flatMap u32leBytes ++ rest)]
    rw [exSeq_ok]
    rw [ih (fun y hy => h y (List.mem_cons_of_mem x hy))]
    rfl

theorem readDeltas_bytes (xs : List Nat) :
    ∀ prev rest, prev < U32 → (∀ x ∈ xs, x < U32) → List.Chain (· ≤ ·) prev xs →
      readDeltas prev xs.length (mapDeltaBytes prev xs ++ rest) = .ok (xs, rest) := by
  induction xs with
  | nil => intro prev rest _ _ _; simp [readDeltas, mapDeltaBytes]
  | cons x tl ih =>
    intro prev rest hprev hmem hchain
    rw [List.chain_cons] at hchain
    obtain ⟨hpx, hchain'⟩ := hchain
    have hx : x < U32 := hmem x (List.mem_cons_self x tl)
    have hsub : sub32 x prev = x - prev := by unfold sub32 U32; unfold U32 at hx; omega
    simp only [mapDeltaBytes, List.length_cons, List.append_assoc, readDeltas]
    rw [hsub, rdVaru_encode (x - prev) (by unfold TWO64; unfold U32 at hx; omega)
      (mapDeltaBytes x tl ++ rest), exSeq_ok]
    have hrec : (prev + (x - prev) % U32) % U32 = x := by
      unfold U32; unfold U32 at hx hprev; omega
    simp only [hrec]
    rw [ih x rest hx (fun y hy => hmem y (List.mem_cons_of_mem x hy)) hchain', exSeq_ok]

theorem readMapV2_bytes (l : List Nat) (rest : List Nat) (hne : l ≠ [])
    (h : ∀ x ∈ l, x < U32) (hchain : l.Chain' (· ≤ ·)) :
    readMapV2 l.length (mapV2Bytes l ++ rest) = .ok (l, rest) := by
  cases l with
  | nil => exact absurd rfl hne
  | cons first tl =>
    simp only [mapV2Bytes, List.length_cons, List.append_assoc, readMapV2]
    rw [rdU32le_bytes first (h first (List.mem_cons_self first tl))
      (mapDeltaBytes first tl ++ rest), exSeq_ok]
    rw [readDeltas_bytes tl first rest (h first (List.mem_cons_self first tl))
      (fun y hy => h y (List.mem_cons_of_mem first hy)) hchain, exSeq_ok]

/-! ### Facts about the serializer data -/

theorem chain'_lt_of_ne_le (l : List Nat) (h1 : l.Chain' (· ≠ ·))
    (h2 : l.Pairwise (· ≤ ·)) : l.Chain' (· < ·) := by
  induction l with
  | nil => simp
  | cons a tl ih =>
    cases tl with
    | nil => simp
    | cons b tl2 =>
      rw [List.chain'_cons] at h1 ⊢
      rw [List.pairwise_cons] at h2
      refine ⟨?_, ih h1.2 h2.2⟩
      have h3 := h2.1 b (List.mem_cons_self b tl2)
      have h4 := h1.1
      omega

theorem uniqIds_chain_lt (edges : List Edge) : (uniqIds edges).Chain' (· < ·) := by
  have hsorted : List.Sorted (· ≤ ·) (List.insertionSort (· ≤ ·) (allIds edges)) :=
    List.sorted_insertionSort (· ≤ ·) (allIds edges)
  have hsub := List.destutter_sublist (l := List.insertionSort (· ≤ ·) (allIds edges)) (· ≠ ·)
  have hpw : (uniqIds edges).Pairwise (· ≤ ·) := hsorted.sublist hsub
  have hne : (uniqIds edges).Chain' (· ≠ ·) :=
    List.destutter_is_chain' (· ≠ ·) (List.insertionSort (· ≤ ·) (allIds edges))
  exact chain'_lt_of_ne_le _ hne hpw

theorem uniqIds_mem (edges : List Edge) (x : Nat) (hx : x ∈ uniqIds edges) :
    x ∈ allIds edges := by
  have hsub := List.destutter_sublist (l := List.insertionSort (· ≤ ·) (allIds edges)) (· ≠ ·)
  have h1 : x ∈ List.insertionSort (· ≤ ·) (allIds edges) := hsub.subset hx
  exact (List.perm_insertionSort (· ≤ ·) (allIds edges)).subset h1

theorem uniqIds_mem_lt (edges : List Edge)
    (hval : ∀ e ∈ edges, e.1 < U32 ∧ e.2.1 < U32) :
    ∀ x ∈ uniqIds edges, x < U32 := by
  intro x hx
  have h1 := uniqIds_mem edges x hx
  rw [allIds, List.mem_flatMap] at h1
  obtain ⟨e, he, hxe⟩ := h1
  have := hval e he
  simp only [List.mem_cons, List.not_mem_nil, or_false, List.mem_singleton] at hxe
  rcases hxe with h | h <;> omega

theorem uniqIds_ne_nil (edges : List Edge) (hne : edges ≠ []) : uniqIds edges ≠ [] := by
  have hlen : (allIds edges).length ≠ 0 := by
    cases edges with
    | nil => exact absurd rfl hne
    | cons e tl => simp [allIds]
  have hlen2 : (List.insertionSort (· ≤ ·) (allIds edges)).length ≠ 0 := by
    rw [(List.perm_insertionSort (· ≤ ·) (allIds edges)).length_eq]
    exact hlen
  rw [uniqIds]
  cases h : List.insertionSort (· ≤ ·) (allIds edges) with
  | nil => rw [h] at hlen2; simp at hlen2
  | cons a l =>
    rw [List.destutter_cons']
    exact List.destutter'_ne_nil l (· ≠ ·)

theorem loopsRaw_MnoLoops (uniq : List Nat) (edges : List Edge) :
    (loopsRaw uniq edges).length + MnoLoops uniq edges = edges.length := by
  induction edges with
  | nil => simp [loopsRaw, MnoLoops]
  | cons e tl ih =>
    by_cases h : idxOf uniq e.1 = idxOf uniq e.2.1
    · simp only [loopsRaw, MnoLoops, List.filterMap_cons, List.countP_cons] at ih ⊢
      simp [h] at ih ⊢
      omega
    · simp only [loopsRaw, MnoLoops, List.filterMap_cons, List.countP_cons] at ih ⊢
      simp [h] at ih ⊢
      omega

theorem Mtotal_le (uniq : List Nat) (edges : List Edge) :
    Mtotal uniq edges ≤ edges.length := by
  have h1 := loopsRaw_MnoLoops uniq edges
  have h2 : (loopsSorted uniq edges).length = (loopsRaw uniq edges).length :=
    (List.perm_insertionSort leFst (loopsRaw uniq edges)).length_eq
  rw [Mtotal, loopsSorted] at *
  omega

/-! ### Version 1 / version 2 read equivalence -/

theorem crossVersion_eq (edges : List Edge) (hne : edges ≠ [])
    (hval : ∀ e ∈ edges, e.1 < U32 ∧ e.2.1 < U32)
    (hlen : edges.length < TWO64)
    (hN : (uniqIds edges).length < U32)
    (h18 : 18 ≤ (serialize edges).length) :
    deserialize (serializeV1 edges) = deserialize (serialize edges) := by
  have hne0 : ¬ (edges.length = 0) := by
    cases edges with
    | nil => exact absurd rfl hne
    | cons e tl => simp
  have hmem : ∀ x ∈ uniqIds edges, x < U32 := uniqIds_mem_lt edges hval
  have hchain : (uniqIds edges).Chain' (· ≤ ·) :=
    (uniqIds_chain_lt edges).imp (fun _ _ hab => Nat.le_of_lt hab)
  have hun : uniqIds edges ≠ [] := uniqIds_ne_nil edges hne
  have hM : Mtotal (uniqIds edges) edges < TWO64 :=
    Nat.lt_of_le_of_lt (Mtotal_le (uniqIds edges) edges) hlen
  have hNT : (uniqIds edges).length < TWO64 := by
    unfold U32 at hN; unfold TWO64; omega
  -- right-hand side: the version-2 binary
  have h12 : 12 ≤ (varuEncode (uniqIds edges).length
      ++ (varuEncode (Mtotal (uniqIds edges) edges)
      ++ (mapV2Bytes (uniqIds edges)
      ++ (sectionB (uniqIds edges) edges ++ sectionC (uniqIds edges) edges)))).length := by
    rw [serialize, if_neg hne0] at h18
    simp only [List.length_append, hdr, List.length_cons, List.length_nil] at h18 ⊢
    omega
  have hrhs : deserialize (serialize edges) =
      decodeBody (uniqIds edges) (sectionB (uniqIds edges) edges
        ++ sectionC (uniqIds edges) edges) := by
    rw [serialize, if_neg hne0]
    simp only [List.append_assoc]
    rw [deserialize_hdr 2 (Or.inr rfl) _ h12]
    rw [afterHeader, if_neg (by omega : ¬ (2 = 1))]
    rw [rdVaru_encode (uniqIds edges).length hNT _, exSeq_ok]
    rw [rdVaru_encode (Mtotal (uniqIds edges) edges) hM _, exSeq_ok]
    rw [afterMapping, if_neg (by omega : ¬ (2 = 1))]
    rw [Nat.mod_eq_of_lt hN]
    rw [readMapV2_bytes (uniqIds edges) _ hun hmem hchain, exSeq_ok]
  -- left-hand side: the version-1 binary
  have h12' : 12 ≤ (u32leBytes (uniqIds edges).length
      ++ (u64leBytes (Mtotal (uniqIds edges) edges)
      ++ ((uniqIds edges).flatMap u32leBytes
      ++ (sectionB (uniqIds edges) edges ++ sectionC (uniqIds edges) edges)))).length := by
    simp only [List.length_append, u32leBytes, u64leBytes, List.length_cons, List.length_nil]
    omega
  have hlhs : deserialize (serializeV1 edges) =
      decodeBody (uniqIds edges) (sectionB (uniqIds edges) edges
        ++ sectionC (uniqIds edges) edges) := by
    rw [serializeV1, if_neg hne0]
    simp only [List.append_assoc]
    rw [deserialize_hdr 1 (Or.inl rfl) _ h12']
    rw [afterHeader, if_pos rfl]
    rw [rdU32le_bytes (uniqIds edges).length hN _, exSeq_ok]
    rw [rdU64le_bytes (Mtotal (uniqIds edges) edges) hM _, exSeq_ok]
    rw [afterMapping, if_pos rfl]
    rw [readMapV1_flatMap (uniqIds edges) _ hmem, exSeq_ok]
  rw [hlhs, hrhs]

/-! ### The M field and canonical-shape helpers -/

theorem m_ignored_v2 (nb m m' : Nat) (rest : List Nat) (hnb : nb < TWO64) (hm : m < TWO64)
    (hm' : m' < TWO64)
    (hL : 18 ≤ (hdr 2 ++ varuEncode nb ++ varuEncode m ++ rest).length)
    (hL' : 18 ≤ (hdr 2 ++ varuEncode nb ++ varuEncode m' ++ rest).length) :
    deserialize (hdr 2 ++ varuEncode nb ++ varuEncode m ++ rest) =
      deserialize (hdr 2 ++ varuEncode nb ++ varuEncode m' ++ rest) := by
  have step : ∀ mm : Nat, mm < TWO64 →
      18 ≤ (hdr 2 ++ varuEncode nb ++ varuEncode mm ++ rest).length →
      deserialize (hdr 2 ++ varuEncode nb ++ varuEncode mm ++ rest) =
        afterMapping 2 (nb % U32) rest := by
    intro mm hmm h18
    simp only [List.append_assoc] at h18 ⊢
    have h12 : 12 ≤ (varuEncode nb ++ (varuEncode mm ++ rest)).length := by
      simp only [List.length_append, hdr, List.length_cons, List.length_nil] at h18 ⊢
      omega
    rw [deserialize_hdr 2 (Or.inr rfl) _ h12]
    rw [afterHeader, if_neg (by omega : ¬ (2 = 1))]
    rw [rdVaru_encode nb hnb _, exSeq_ok, rdVaru_encode mm hmm _, exSeq_ok]
  rw [step m hm hL, step m' hm' hL']

theorem m_ignored_v1 (n32 m m' : Nat) (rest : List Nat) (hn : n32 < U32) (hm : m < TWO64)
    (hm' : m' < TWO64) :
    deserialize (hdr 1 ++ u32leBytes n32 ++ u64leBytes m ++ rest) =
      deserialize (hdr 1 ++ u32leBytes n32 ++ u64leBytes m' ++ rest) := by
  have step : ∀ mm : Nat, mm < TWO64 →
      deserialize (hdr 1 ++ u32leBytes n32 ++ u64leBytes mm ++ rest) =
        afterMapping 1 n32 rest := by
    intro mm hmm
    simp only [List.append_assoc]
    have h12 : 12 ≤ (u32leBytes n32 ++ (u64leBytes mm ++ rest)).length := by
      simp only [List.length_append, u32leBytes, u64leBytes, List.length_cons, List.length_nil]
      omega
    rw [deserialize_hdr 1 (Or.inl rfl) _ h12]
    rw [afterHeader, if_pos rfl]
    rw [rdU32le_bytes n32 hn _, exSeq_ok, rdU64le_bytes mm hmm _, exSeq_ok]
  rw [step m hm, step m' hm']

theorem upperSorted_mem_gt (uniq : List Nat) (edges : List Edge) (u : Nat) :
    ∀ p ∈ upperSorted uniq edges u, u < p.1 := by
  intro p hp
  have hp' : p ∈ upperRaw uniq edges u :=
    (List.perm_insertionSort leFst (upperRaw uniq edges u)).subset hp
  rw [upperRaw, List.mem_filterMap] at hp'
  obtain ⟨e, _, hfe⟩ := hp'
  by_cases h1 : idxOf uniq e.1 = idxOf uniq e.2.1
  · simp [h1] at hfe
  · by_cases h2 : min (idxOf uniq e.1) (idxOf uniq e.2.1) = u
    · simp only [h1, if_false, h2, if_true, Option.some_inj] at hfe
      rw [← hfe]
      show u < max (idxOf uniq e.1) (idxOf uniq e.2.1)
      omega
    · simp [h1, h2] at hfe

/-! ### Claims -/

/-- C1: the spec claims that serializing then deserializing any valid input
TSV reproduces the canonical edge multiset.  The code violates this: the
single self-loop line `7\t7\t255\n` serializes to a 16-byte binary, which the
deserializer's own 18-byte minimum-size check (`sz < 4+1+1+4+8`, the
version-1 header minimum) rejects with `"binary too small"`, so no output is
produced at all.  This theorem evaluates the code at that failing input. -/
theorem c1_small_graph_rejected :
    serialize [(7, 7, 255)] = [71, 82, 80, 72, 2, 1, 1, 1, 7, 0, 0, 0, 0, 1, 0, 255] ∧
    (serialize [(7, 7, 255)]).length = 16 ∧
    deserialize (serialize [(7, 7, 255)]) = .error .binaryTooSmall := by
  refine ⟨by decide, by decide, by decide⟩

/-- C2: the spec claims that a reconstructed adjacency index `j = prev + gap`
with `j ≥ N` (or an overflow) fails with `CorruptAdjacency`, and a loop
vertex `v ≥ N` fails with `CorruptLoops`.  The code performs no such check:
it reads `orig_of[j]` (resp. `orig_of[v]`) out of bounds — undefined
behaviour, modelled as `oobIndex` — and no `CorruptAdjacency`/`CorruptLoops`
error exists in the code.  The first binary decodes `N = 1` and then a gap
leading to `j = 1 ≥ N` in the adjacency section; the second reaches
`v = 5 ≥ N = 1` in the loops section. -/
theorem c2_oob_not_corrupt :
    deserialize [71, 82, 80, 72, 2, 1, 1, 0, 5, 0, 0, 0, 1, 1, 7, 0, 0, 0]
      = .error .oobIndex ∧
    deserialize [71, 82, 80, 72, 2, 1, 1, 0, 5, 0, 0, 0, 0, 1, 5, 255, 0, 0]
      = .error .oobIndex ∧
    Err.oobIndex ≠ Err.corruptAdjacency ∧ Err.oobIndex ≠ Err.corruptLoops := by
  refine ⟨by decide, by decide, by decide, by decide⟩

/-- C3: serializing a zero-byte input does produce exactly the 8-byte binary
`47 52 50 48 02 01 00 00`, but deserializing that binary does not produce
zero bytes of text: the 18-byte minimum-size check rejects it with
`"binary too small"`. -/
theorem c3_empty_binary :
    serialize [] = [71, 82, 80, 72, 2, 1, 0, 0] ∧
    deserialize [71, 82, 80, 72, 2, 1, 0, 0] = .error .binaryTooSmall := by
  refine ⟨by decide, by decide⟩

/-- C4: for every `x < 2^64`, decoding the varint encoding of `x` returns
`x` (for any suffix of the stream), and the encoded length is
`⌈bitlen(x)/7⌉`, with length 1 for `x = 0`. -/
theorem c4_varu_roundtrip (x : Nat) (hx : x < TWO64) :
    (∀ rest, rdVaru (varuEncode x ++ rest) = .ok (x, rest)) ∧
    (varuEncode x).length = if x = 0 then 1 else (bitlen x + 6) / 7 :=
  ⟨fun rest => rdVaru_encode x hx rest, varuEncode_length x⟩

theorem c4_witness :
    (2:Nat) ^ 63 < TWO64 ∧
    rdVaru (varuEncode (2 ^ 63) ++ []) = .ok (2 ^ 63, []) ∧
    (varuEncode (2 ^ 63)).length = if (2:Nat) ^ 63 = 0 then 1 else (bitlen (2 ^ 63) + 6) / 7 :=
  ⟨by decide, (c4_varu_roundtrip (2 ^ 63) (by decide)).1 [],
    (c4_varu_roundtrip (2 ^ 63) (by decide)).2⟩

/-- C5 counterexample: the claim as stated fails.  For the graph of the
single line `7\t7\t255\n`, the hand-crafted version-1 binary (26 bytes)
deserializes to that edge, while the version-2 binary the writer emits is 16
bytes and is rejected by the minimum-size check — the outputs differ. -/
theorem c5_cex :
    deserialize (serializeV1 [(7, 7, 255)]) = .ok [(7, 7, 255)] ∧
    deserialize (serialize [(7, 7, 255)]) = .error .binaryTooSmall := by
  refine ⟨by decide, by decide⟩

/-- C5 (amended): the writer emits only version 2, and for every nonempty
valid graph with fewer than `2^32` vertices (the most a version-1 `u32 N`
field can describe) whose version-2 binary passes the 18-byte minimum-size
check, deserializing the version-1 binary produces exactly the same result
as deserializing the version-2 binary. -/
theorem c5_cross_version (edges : List Edge) (hne : edges ≠ [])
    (hval : ∀ e ∈ edges, e.1 < U32 ∧ e.2.1 < U32)
    (hlen : edges.length < TWO64)
    (hN : (uniqIds edges).length < U32)
    (h18 : 18 ≤ (serialize edges).length) :
    (∃ t, serialize edges = hdr 2 ++ t) ∧
    deserialize (serializeV1 edges) = deserialize (serialize edges) := by
  constructor
  · have hne0 : ¬ (edges.length = 0) := by
      cases edges with
      | nil => exact absurd rfl hne
      | cons e tl => simp
    refine ⟨varuEncode (uniqIds edges).length
      ++ (varuEncode (Mtotal (uniqIds edges) edges)
      ++ (mapV2Bytes (uniqIds edges)
      ++ (sectionB (uniqIds edges) edges ++ sectionC (uniqIds edges) edges))), ?_⟩
    rw [serialize, if_neg hne0]
    simp [List.append_assoc]
  · exact crossVersion_eq edges hne hval hlen hN h18

theorem c5_witness :
    deserialize (serializeV1 [(10, 20, 5)]) = deserialize (serialize [(10, 20, 5)]) :=
  (c5_cross_version [(10, 20, 5)] (by decide) (by decide) (by decide) (by decide)
    (by decide)).2

/-- C6: canonical shape of every serializer-produced binary: the id table
`orig` is strictly ascending; for every vertex `u` the emitted neighbour
list (whose entries are the decoded `j` values, the gaps being their
consecutive differences) is non-decreasing and every neighbour exceeds `u`;
and the loop list is non-decreasing. -/
theorem c6_canonical_shape (edges : List Edge) :
    (uniqIds edges).Chain' (· < ·) ∧
    (∀ u : Nat, (upperSorted (uniqIds edges) edges u).Chain' leFst ∧
      ∀ p ∈ upperSorted (uniqIds edges) edges u, u < p.1) ∧
    (loopsSorted (uniqIds edges) edges).Chain' leFst := by
  refine ⟨uniqIds_chain_lt edges, fun u => ⟨?_, upperSorted_mem_gt _ _ _⟩, ?_⟩
  · exact List.Pairwise.chain'
      (List.sorted_insertionSort leFst (upperRaw (uniqIds edges) edges u))
  · exact List.Pairwise.chain'
      (List.sorted_insertionSort leFst (loopsRaw (uniqIds edges) edges))

theorem c6_witness :
    (uniqIds [(10, 20, 5)]).Chain' (· < ·) ∧
    (upperSorted (uniqIds [(10, 20, 5)]) [(10, 20, 5)] 0).Chain' leFst ∧
    0 < (1, 5).1 ∧
    (loopsSorted (uniqIds [(10, 20, 5)]) [(10, 20, 5)]).Chain' leFst :=
  ⟨(c6_canonical_shape [(10, 20, 5)]).1,
   ((c6_canonical_shape [(10, 20, 5)]).2.1 0).1,
   ((c6_canonical_shape [(10, 20, 5)]).2.1 0).2 (1, 5) (by decide),
   (c6_canonical_shape [(10, 20, 5)]).2.2⟩

/-- C7: if every byte seen carries the continuation bit, varint decoding
fails — with `"varint too long"` as soon as ten continuation bytes are
available (the shift would pass 63 bits), and with `"unexpected EOF"` if the
stream ends first.  It never silently returns a value in either case. -/
theorem c7_varu_error (bs : List Nat) (h : ∀ b ∈ bs.take 10, 128 ≤ b) :
    rdVaru bs = .error (if 10 ≤ bs.length then Err.varintTooLong else Err.unexpectedEOF) := by
  have h10 : (63 - 0) / 7 + 1 = 10 := by norm_num
  have hc := varuDecodeAux_all_cont bs 0 0 ⟨0, by norm_num⟩ (by omega)
    (by rw [h10]; exact h)
  show varuDecodeAux bs 0 0 = _
  rw [hc, h10]

theorem c7_witness :
    rdVaru [128, 128, 128, 128, 128, 128, 128, 128, 128, 128] = .error .varintTooLong ∧
    rdVaru [128] = .error .unexpectedEOF := by
  constructor
  · have h := c7_varu_error [128, 128, 128, 128, 128, 128, 128, 128, 128, 128] (by decide)
    rwa [if_pos (by decide)] at h
  · have h := c7_varu_error [128] (by decide)
    rwa [if_neg (by decide)] at h

/-- C8: the single line `10\t20\t5\n` serializes to exactly the header plus
`varu(2) varu(1) u32le(10) varu(10)`, adjacency `deg=1, gap=1, w=5` for
vertex 0 and `deg=0` for vertex 1, and `L=0`; deserializing it yields
exactly the line `10\t20\t5\n`. -/
theorem c8_single_edge :
    serialize [(10, 20, 5)] = [71, 82, 80, 72, 2, 1, 2, 1, 10, 0, 0, 0, 10, 1, 1, 5, 0, 0] ∧
    deserialize (serialize [(10, 20, 5)]) = .ok [(10, 20, 5)] ∧
    renderLines [(10, 20, 5)] = "10\t20\t5\n" := by
  refine ⟨by decide, by decide, by decide⟩

/-- C9 counterexample: the claim as stated fails.  These two binaries are
identical except for the value in the `M` field (`varu(128)` versus
`varu(1)`), yet the first (18 bytes) decodes to the line `7\t7\t255\n` while
the second (17 bytes) is rejected by the minimum-size check, producing no
output. -/
theorem c9_cex :
    deserialize [71, 82, 80, 72, 2, 1, 1, 128, 1, 7, 0, 0, 0, 0, 1, 0, 255, 0]
      = .ok [(7, 7, 255)] ∧
    deserialize [71, 82, 80, 72, 2, 1, 1, 1, 7, 0, 0, 0, 0, 1, 0, 255, 0]
      = .error .binaryTooSmall := by
  refine ⟨by decide, by decide⟩

/-- C9 (amended): the stored `M` field is read and discarded; provided both
binaries pass the 18-byte minimum-size check, replacing the `M` value of a
version-2 binary changes nothing in the decoded output, and for version-1
binaries (fixed-width `M`) the property holds unconditionally. -/
theorem c9_m_ignored :
    (∀ (nb m m' : Nat) (rest : List Nat), nb < TWO64 → m < TWO64 → m' < TWO64 →
      18 ≤ (hdr 2 ++ varuEncode nb ++ varuEncode m ++ rest).length →
      18 ≤ (hdr 2 ++ varuEncode nb ++ varuEncode m' ++ rest).length →
      deserialize (hdr 2 ++ varuEncode nb ++ varuEncode m ++ rest) =
        deserialize (hdr 2 ++ varuEncode nb ++ varuEncode m' ++ rest)) ∧
    (∀ (n32 m m' : Nat) (rest : List Nat), n32 < U32 → m < TWO64 → m' < TWO64 →
      deserialize (hdr 1 ++ u32leBytes n32 ++ u64leBytes m ++ rest) =
        deserialize (hdr 1 ++ u32leBytes n32 ++ u64leBytes m' ++ rest)) :=
  ⟨fun nb m m' rest hnb hm hm' hL hL' => m_ignored_v2 nb m m' rest hnb hm hm' hL hL',
   fun n32 m m' rest hn hm hm' => m_ignored_v1 n32 m m' rest hn hm hm'⟩

theorem c9_witness :
    deserialize (hdr 2 ++ varuEncode 2 ++ varuEncode 1 ++ [10, 0, 0, 0, 10, 1, 1, 5, 0, 0]) =
      deserialize (hdr 2 ++ varuEncode 2 ++ varuEncode 0 ++ [10, 0, 0, 0, 10, 1, 1, 5, 0, 0]) ∧
    deserialize (hdr 1 ++ u32leBytes 0 ++ u64leBytes 5 ++ [0]) =
      deserialize (hdr 1 ++ u32leBytes 0 ++ u64leBytes 6 ++ [0]) :=
  ⟨c9_m_ignored.1 2 1 0 [10, 0, 0, 0, 10, 1, 1, 5, 0, 0] (by decide) (by decide) (by decide)
      (by decide) (by decide),
   c9_m_ignored.2 0 5 6 [0] (by decide) (by decide) (by decide)⟩

/-- C10: every binary input shorter than 18 bytes is rejected with
`"binary too small"` before the header is examined — including otherwise
well-formed version-2 binaries such as the 9-byte empty graph with an
explicit `L = 0` (see the witness). -/
theorem c10_min_size (bs : List Nat) (h : bs.length < 18) :
    deserialize bs = .error .binaryTooSmall := by
  simp only [deserialize, if_pos h]

theorem c10_witness :
    deserialize [71, 82, 80, 72, 2, 1, 0, 0, 0] = .error .binaryTooSmall :=
  c10_min_size [71, 82, 80, 72, 2, 1, 0, 0, 0] (by decide)

end GraphCodec
